import Mathlib

/-!
Verification of the CoreNumeric generic numeric-algorithms library
(src/core_numeric.h) against its design specification.

The C++ header defines container algorithms (sum, mean, variance, max,
transform_reduce) templated over an element type constrained by concepts
(Addable, Divisible, Comparable), plus variadic counterparts
(sum_variadic, mean_variadic, variance_variadic, max_variadic).

Shallow embedding: an element type together with the operations the
concepts require is modelled by the structure Ops.  A sequence input is a
List.  A variadic argument pack (which the templates require to be
non-empty wherever they compile) is modelled as a first argument plus a
list of remaining arguments.
-/

namespace core_numeric

/-- The operations available on a candidate element type T.  These are
exactly the expressions the algorithms in core_numeric.h use on values of
the element type: default construction (zero), binary addition,
subtraction, multiplication, squaring via a power operation (the
non-integral branch of variance uses a power function), division by an
unsigned count, and strict greater-than comparison.  isIntegral records
the compile-time numeric-category test used by variance. -/
structure Ops (T : Type) where
  zero : T
  add : T → T → T
  sub : T → T → T
  mul : T → T → T
  pow2 : T → T
  divN : T → Nat → T
  gt : T → T → Bool
  isIntegral : Bool

variable {T : Type}

/-- sum (core_numeric.h, lines 47-57): accumulator initialised to the
default value, each element added in iteration order. -/
def sum (ops : Ops T) (contenedor : List T) : T :=
  contenedor.foldl ops.add ops.zero

/-- mean (core_numeric.h, lines 61-73): computes sum, then divides by the
element count, returning the default value when the count is zero. -/
def mean (ops : Ops T) (contenedor : List T) : T :=
  let suma_total := sum ops contenedor
  let n := contenedor.length
  if n = 0 then ops.zero else ops.divN suma_total n

/-- The squared deviation term of variance (core_numeric.h, lines 88-102):
for integral element types the deviation is squared by direct
multiplication, otherwise by the power operation. -/
def sqTerm (ops : Ops T) (diff : T) : T :=
  if ops.isIntegral then ops.mul diff diff else ops.pow2 diff

/-- variance (core_numeric.h, lines 77-108): computes the mean, then
folds the squared deviations from that mean into an accumulator seeded
with the default value, and finally divides by the element count,
returning the default value when the count is zero. -/
def variance (ops : Ops T) (contenedor : List T) : T :=
  let promedio := mean ops contenedor
  let acumulador :=
    contenedor.foldl (fun acc valor => ops.add acc (sqTerm ops (ops.sub valor promedio))) ops.zero
  let n := contenedor.length
  if n = 0 then ops.zero else ops.divN acumulador n

/-- max (core_numeric.h, lines 113-134): returns the default value on an
empty container; otherwise starts the running maximum at the first
element and replaces it whenever a later element compares strictly
greater. -/
def max (ops : Ops T) (contenedor : List T) : T :=
  match contenedor with
  | [] => ops.zero
  | x :: xs => xs.foldl (fun maximo v => if ops.gt v maximo then v else maximo) x

/-- transform_reduce (core_numeric.h, lines 139-149): applies the mapping
function to every element before accumulating with the same fold-left
pattern as sum. -/
def transform_reduce (ops : Ops T) (contenedor : List T) (funcion : T → T) : T :=
  contenedor.foldl (fun resultado valor => ops.add resultado (funcion valor)) ops.zero

/-- sum_variadic (core_numeric.h, lines 154-158): the C++ unary fold
expression (... + args), which expands to the left-nested expression
((a1 + a2) + a3) + ... applied to the argument pack. -/
def sum_variadic (ops : Ops T) : T → List T → T
  | acc, [] => acc
  | acc, x :: xs => sum_variadic ops (ops.add acc x) xs

/-- mean_variadic (core_numeric.h, lines 162-166): sum_variadic divided
by the number of arguments. -/
def mean_variadic (ops : Ops T) (first : T) (rest : List T) : T :=
  ops.divN (sum_variadic ops first rest) (rest.length + 1)

/-- variance_variadic (core_numeric.h, lines 174-178): materialises the
arguments, in order, into a temporary vector and delegates to the
container variance algorithm. -/
def variance_variadic (ops : Ops T) (first : T) (rest : List T) : T :=
  variance ops (first :: rest)

/-- max_aux (core_numeric.h, lines 184-187): (a > b) ? a : b. -/
def max_aux (ops : Ops T) (a b : T) : T :=
  if ops.gt a b then a else b

/-- max_variadic (core_numeric.h, lines 189-196): the running maximum
starts at the first argument and is updated left-to-right by
max_val = max_aux(max_val, rest) for each remaining argument. -/
def max_variadic (ops : Ops T) (first : T) (rest : List T) : T :=
  rest.foldl (fun max_val r => max_aux ops max_val r) first

/-! Concrete instantiations used as witnesses and counterexamples. -/

/-- Mathematical integers with exact arithmetic and truncating division:
the idealisation of an exact numeric element type. -/
def intOps : Ops Int where
  zero := 0
  add := fun a b => a + b
  sub := fun a b => a - b
  mul := fun a b => a * b
  pow2 := fun t => t * t
  divN := fun a n => Int.tdiv a (Int.ofNat n)
  gt := fun a b => decide (b < a)
  isIntegral := true

/-- 2 to the 64th: the modulus of 64-bit unsigned machine arithmetic. -/
def M64 : Nat := 2 ^ 64

/-- A 64-bit unsigned integral element type (for example std::size_t,
the one kind of integral type whose division by a std::size_t count has
the same type, as the Divisible concept requires): wraparound arithmetic
modulo 2^64 and truncating unsigned division. -/
def u64Ops : Ops Nat where
  zero := 0
  add := fun a b => (a + b) % M64
  sub := fun a b => (a + (M64 - b % M64)) % M64
  mul := fun a b => (a * b) % M64
  pow2 := fun t => (t * t) % M64
  divN := fun a n => a / n
  gt := fun a b => decide (b < a)
  isIntegral := true

/-- An element type carrying a payload not inspected by its strict
comparison: pairs compared by first component only, like the
demonstration Vector3D type whose comparison looks only at magnitude.
Distinct values can therefore be tied under the comparison. -/
def pairOps : Ops (Nat × Nat) where
  zero := (0, 0)
  add := fun a b => (a.1 + b.1, a.2 + b.2)
  sub := fun a b => (a.1 - b.1, a.2 - b.2)
  mul := fun a b => (a.1 * b.1, a.2 * b.2)
  pow2 := fun t => (t.1 * t.1, t.2 * t.2)
  divN := fun a n => (a.1 / n, a.2 / n)
  gt := fun a b => decide (b.1 < a.1)
  isIntegral := false

/-- An Addable element type whose addition operator is not associative
(a C++ type may implement operator+ any way it likes; here it subtracts).
Distinguishes left-associative from right-associative folds. -/
def subOps : Ops Int where
  zero := 0
  add := fun a b => a - b
  sub := fun a b => a - b
  mul := fun a b => a * b
  pow2 := fun t => t * t
  divN := fun a n => Int.tdiv a (Int.ofNat n)
  gt := fun a b => decide (b < a)
  isIntegral := false

/-! Helper lemmas shared between claims. -/

/-- A left fold whose step always returns either the accumulator or the
new element produces a member of the start value consed onto the list. -/
theorem foldl_choice_mem (step : T → T → T)
    (hstep : ∀ m v, step m v = m ∨ step m v = v) :
    ∀ (rest : List T) (a : T), rest.foldl step a ∈ a :: rest := by
  intro rest
  induction rest with
  | nil => intro a; simp
  | cons x xs ih =>
    intro a
    rw [List.foldl_cons]
    rcases hstep a x with h | h <;> rw [h]
    · have hmem := ih a
      simp only [List.mem_cons] at hmem ⊢
      tauto
    · have hmem := ih x
      simp only [List.mem_cons] at hmem ⊢
      tauto

/-- A left fold whose step replaces the accumulator exactly when the new
element has a strictly larger key (the container max update rule) keeps
the earliest element of maximal key: the input splits around the result,
with every earlier element of strictly smaller key and every later
element of key no larger. -/
theorem foldl_keeps_first_argmax (gtb : T → T → Bool) (f : T → Int)
    (hiff : ∀ a b, gtb a b = true ↔ f b < f a) :
    ∀ (rest : List T) (a r : T),
      r = rest.foldl (fun m v => if gtb v m then v else m) a →
      ∃ l1 l2, a :: rest = l1 ++ r :: l2 ∧
        (∀ x ∈ l1, f x < f r) ∧ (∀ x ∈ l2, f x ≤ f r) := by
  intro rest
  induction rest with
  | nil =>
    intro a r hr
    exact ⟨[], [], by rw [hr]; rfl, by simp, by simp⟩
  | cons x xs ih =>
    intro a r hr
    rw [List.foldl_cons] at hr
    cases hx : gtb x a with
    | true =>
      rw [if_pos hx] at hr
      have hax : f a < f x := (hiff x a).mp hx
      obtain ⟨l1, l2, heq, hbefore, hafter⟩ := ih x r hr
      refine ⟨a :: l1, l2, by rw [List.cons_append, ← heq], ?_, hafter⟩
      intro y hy
      rcases List.mem_cons.mp hy with rfl | hyl
      · rcases l1 with _ | ⟨z, zs⟩
        · simp only [List.nil_append, List.cons.injEq] at heq
          rw [← heq.1]
          exact hax
        · simp only [List.cons_append, List.cons.injEq] at heq
          have hzr : f z < f r := hbefore z (by simp)
          rw [heq.1] at hax
          exact lt_trans hax hzr
      · exact hbefore y hyl
    | false =>
      rw [if_neg (by simp [hx])] at hr
      have hxa : f x ≤ f a := by
        by_contra hlt
        rw [(hiff x a).mpr (lt_of_not_le hlt)] at hx
        exact Bool.noConfusion hx
      obtain ⟨l1, l2, heq, hbefore, hafter⟩ := ih a r hr
      rcases l1 with _ | ⟨z, zs⟩
      · simp only [List.nil_append, List.cons.injEq] at heq
        refine ⟨[], x :: xs, ?_, by simp, ?_⟩
        · rw [List.nil_append, heq.1]
        · intro y hy
          rcases List.mem_cons.mp hy with rfl | hyl
          · rw [← heq.1]; exact hxa
          · exact hafter y (heq.2 ▸ hyl)
      · simp only [List.cons_append, List.cons.injEq] at heq
        have har : f a < f r := heq.1 ▸ hbefore z (by simp)
        refine ⟨a :: x :: zs, l2, ?_, ?_, hafter⟩
        · rw [heq.2]; simp
        · intro y hy
          rcases List.mem_cons.mp hy with rfl | hy2
          · exact har
          rcases List.mem_cons.mp hy2 with rfl | hy3
          · exact lt_of_le_of_lt hxa har
          · exact hbefore y (List.mem_cons_of_mem z hy3)

/-- A left fold whose step keeps the accumulator exactly when the new
element has a strictly smaller key (the max_aux update rule) keeps the
latest element of maximal key: the input splits around the result, with
every earlier element of key no larger and every later element of key
strictly smaller. -/
theorem foldl_keeps_last_argmax (gtb : T → T → Bool) (f : T → Int)
    (hiff : ∀ a b, gtb a b = true ↔ f b < f a) :
    ∀ (rest : List T) (a r : T),
      r = rest.foldl (fun m v => if gtb m v then m else v) a →
      ∃ l1 l2, a :: rest = l1 ++ r :: l2 ∧
        (∀ x ∈ l1, f x ≤ f r) ∧ (∀ x ∈ l2, f x < f r) := by
  intro rest
  induction rest with
  | nil =>
    intro a r hr
    exact ⟨[], [], by rw [hr]; rfl, by simp, by simp⟩
  | cons x xs ih =>
    intro a r hr
    rw [List.foldl_cons] at hr
    cases hx : gtb a x with
    | true =>
      rw [if_pos hx] at hr
      have hxa : f x < f a := (hiff a x).mp hx
      obtain ⟨l1, l2, heq, hbefore, hafter⟩ := ih a r hr
      rcases l1 with _ | ⟨z, zs⟩
      · simp only [List.nil_append, List.cons.injEq] at heq
        refine ⟨[], x :: xs, ?_, by simp, ?_⟩
        · rw [List.nil_append, heq.1]
        · intro y hy
          rcases List.mem_cons.mp hy with rfl | hyl
          · rw [← heq.1]; exact hxa
          · exact hafter y (heq.2 ▸ hyl)
      · simp only [List.cons_append, List.cons.injEq] at heq
        have har : f a ≤ f r := heq.1 ▸ hbefore z (by simp)
        refine ⟨a :: x :: zs, l2, ?_, ?_, hafter⟩
        · rw [heq.2]; simp
        · intro y hy
          rcases List.mem_cons.mp hy with rfl | hy2
          · exact har
          rcases List.mem_cons.mp hy2 with rfl | hy3
          · exact le_trans (le_of_lt hxa) har
          · exact hbefore y (List.mem_cons_of_mem z hy3)
    | false =>
      rw [if_neg (by simp [hx])] at hr
      have hax : f a ≤ f x := by
        by_contra hlt
        rw [(hiff a x).mpr (lt_of_not_le hlt)] at hx
        exact Bool.noConfusion hx
      obtain ⟨l1, l2, heq, hbefore, hafter⟩ := ih x r hr
      refine ⟨a :: l1, l2, by rw [List.cons_append, ← heq], ?_, hafter⟩
      intro y hy
      rcases List.mem_cons.mp hy with rfl | hyl
      · rcases l1 with _ | ⟨z, zs⟩
        · simp only [List.nil_append, List.cons.injEq] at heq
          rw [← heq.1]
          exact hax
        · simp only [List.cons_append, List.cons.injEq] at heq
          have hzr : f z ≤ f r := hbefore z (by simp)
          rw [heq.1] at hax
          exact le_trans hax hzr
      · exact hbefore y hyl

/-! C1 -/

/-- C1 is false as stated: for the pair element type, (1, 0) and (1, 1)
are tied under the strict comparison (neither compares greater), the
container max of [(1, 0), (1, 1)] keeps the earliest tied maximal value
(1, 0), but max_variadic on the same arguments returns the later tied
value (1, 1), because max_aux(a, b) = (a > b) ? a : b replaces the
running maximum whenever it is not strictly greater than the next
argument. -/
theorem max_variadic_tie_counterexample :
    pairOps.gt (1, 0) (1, 1) = false ∧ pairOps.gt (1, 1) (1, 0) = false ∧
    core_numeric.max pairOps [(1, 0), (1, 1)] = (1, 0) ∧
    max_variadic pairOps (1, 0) [(1, 1)] = (1, 1) ∧
    ((1, 1) : Nat × Nat) ≠ ((1, 0) : Nat × Nat) := by
  exact ⟨rfl, rfl, rfl, rfl, by decide⟩

/-- C1 (amended): when the strict comparison is induced by a key
function, the container max returns the earliest-encountered maximal
value (the running maximum is replaced only when a later element
compares strictly greater), while max_variadic returns the
latest-encountered maximal value (its helper keeps the running maximum
only when it compares strictly greater than the next argument, so ties
favor the most recent maximal argument). -/
theorem max_tie_breaking (T : Type) (ops : Ops T) (f : T → Int)
    (hgt : ∀ a b, ops.gt a b = true ↔ f b < f a) (first : T) (rest : List T) :
    (∃ l1 l2, first :: rest = l1 ++ core_numeric.max ops (first :: rest) :: l2 ∧
      (∀ x ∈ l1, f x < f (core_numeric.max ops (first :: rest))) ∧
      (∀ x ∈ l2, f x ≤ f (core_numeric.max ops (first :: rest)))) ∧
    (∃ l1 l2, first :: rest = l1 ++ max_variadic ops first rest :: l2 ∧
      (∀ x ∈ l1, f x ≤ f (max_variadic ops first rest)) ∧
      (∀ x ∈ l2, f x < f (max_variadic ops first rest))) := by
  constructor
  · exact foldl_keeps_first_argmax ops.gt f hgt rest first _ rfl
  · exact foldl_keeps_last_argmax ops.gt f hgt rest first _ rfl

/-- C1 witness: the amended theorem applied to integers with the
identity key. -/
theorem max_tie_breaking_witness :
    (∃ l1 l2, ([10, 5, 20, 1] : List Int) =
        l1 ++ core_numeric.max intOps [10, 5, 20, 1] :: l2 ∧
      (∀ x ∈ l1, id x < id (core_numeric.max intOps [10, 5, 20, 1])) ∧
      (∀ x ∈ l2, id x ≤ id (core_numeric.max intOps [10, 5, 20, 1]))) ∧
    (∃ l1 l2, ([10, 5, 20, 1] : List Int) =
        l1 ++ max_variadic intOps 10 [5, 20, 1] :: l2 ∧
      (∀ x ∈ l1, id x ≤ id (max_variadic intOps 10 [5, 20, 1])) ∧
      (∀ x ∈ l2, id x < id (max_variadic intOps 10 [5, 20, 1]))) :=
  max_tie_breaking Int intOps id (fun a b => by simp [intOps]) 10 [5, 20, 1]

/-! C2 -/

/-- The right-associative fold a1 + (a2 + (... + an)) that the spec says
sum_variadic computes.  Spec-side definition, written from the spec
sentence, for comparison with the source definition. -/
def sum_variadic_right_spec (ops : Ops T) : T → List T → T
  | a, [] => a
  | a, x :: xs => ops.add a (sum_variadic_right_spec ops x xs)

/-- C2 is false as stated: for an Addable element type whose addition is
not associative, the fold expression (... + args) used by sum_variadic
is left-associative, and on the arguments 1, 2, 3 it differs from the
right-associative fold the claim describes. -/
theorem sum_variadic_not_right_assoc :
    sum_variadic subOps 1 [2, 3] = -4 ∧
    sum_variadic_right_spec subOps 1 [2, 3] = 2 ∧
    sum_variadic subOps 1 [2, 3] ≠ sum_variadic_right_spec subOps 1 [2, 3] := by
  refine ⟨by decide, by decide, by decide⟩

/-- C2 (amended): sum_variadic equals the left-associative fold
((a1 + a2) + ... + an) of the addition operator over its arguments (the
zero-argument form remains unsupported: the embedding requires a first
argument); moreover, whenever the default value is a left identity for
addition, sum_variadic agrees with the container sum on the list of
arguments. -/
theorem sum_variadic_left_assoc_fold (T : Type) (ops : Ops T)
    (first : T) (rest : List T) :
    sum_variadic ops first rest = rest.foldl ops.add first ∧
    ((∀ x, ops.add ops.zero x = x) →
      sum_variadic ops first rest = sum ops (first :: rest)) := by
  have hfold : ∀ (l : List T) (a : T), sum_variadic ops a l = l.foldl ops.add a := by
    intro l
    induction l with
    | nil => intro a; rfl
    | cons x xs ih =>
      intro a
      rw [List.foldl_cons, ← ih (ops.add a x)]
      rfl
  refine ⟨hfold rest first, fun hid => ?_⟩
  rw [hfold rest first]
  unfold sum
  rw [List.foldl_cons, hid first]

/-- C2 witness: the amended theorem applied to exact integers. -/
theorem sum_variadic_left_assoc_fold_witness :
    sum_variadic intOps 1 [2, 3, 4] = List.foldl intOps.add 1 [2, 3, 4] ∧
    sum_variadic intOps 1 [2, 3, 4] = sum intOps [1, 2, 3, 4] :=
  ⟨(sum_variadic_left_assoc_fold Int intOps 1 [2, 3, 4]).1,
   (sum_variadic_left_assoc_fold Int intOps 1 [2, 3, 4]).2 (fun x => Int.zero_add x)⟩

/-! C3 -/

/-- C3: for every element type, sum, mean, variance and max on the empty
sequence return the default-constructed value.  The statement quantifies
over all Ops, in particular over arbitrary divN, so the result cannot
depend on any division being performed: the guards make the empty case
division-free. -/
theorem empty_input_returns_default (T : Type) (ops : Ops T) :
    sum ops [] = ops.zero ∧ mean ops [] = ops.zero ∧
    variance ops [] = ops.zero ∧ core_numeric.max ops [] = ops.zero := by
  refine ⟨rfl, rfl, rfl, rfl⟩

/-! C4 -/

/-- C4: on a non-empty sequence, mean equals the sum divided by the
element count. -/
theorem mean_eq_sum_div_count (T : Type) (ops : Ops T) (seq : List T)
    (h : seq ≠ []) :
    mean ops seq = ops.divN (sum ops seq) seq.length := by
  unfold mean
  simp only []
  rw [if_neg]
  simpa using h

/-- C4 witness: mean intOps [1, 2] computed through the theorem. -/
theorem mean_eq_sum_div_count_witness :
    mean intOps [1, 2] = intOps.divN (sum intOps [1, 2]) 2 :=
  mean_eq_sum_div_count Int intOps [1, 2] (by simp)

/-! C5 -/

/-- C5: variance_variadic materialises its arguments in order and
delegates to the container variance algorithm. -/
theorem variance_variadic_delegates (T : Type) (ops : Ops T)
    (first : T) (rest : List T) :
    variance_variadic ops first rest = variance ops (first :: rest) := rfl

/-! C6 -/

/-- No element of the input compares strictly greater than the result of
the container max fold, provided the comparison is asymmetric and
transitive and untied values are equal. -/
theorem foldl_max_not_gt (ops : Ops T)
    (hasym : ∀ a b, ops.gt a b = true → ops.gt b a = false)
    (htrans : ∀ a b c, ops.gt a b = true → ops.gt b c = true → ops.gt a c = true)
    (hconn : ∀ a b, ops.gt a b = false → ops.gt b a = false → a = b) :
    ∀ (rest : List T) (a : T), ∀ x ∈ a :: rest,
      ops.gt x (rest.foldl (fun m v => if ops.gt v m then v else m) a) = false := by
  have hirr : ∀ a : T, ops.gt a a = false := by
    intro a
    cases h : ops.gt a a with
    | false => rfl
    | true =>
      have hf := hasym a a h
      rw [h] at hf
      exact hf
  intro rest
  induction rest with
  | nil =>
    intro a x hx
    rw [List.mem_singleton] at hx
    subst hx
    exact hirr x
  | cons y ys ih =>
    intro a x hx
    rw [List.foldl_cons]
    by_cases hy : ops.gt y a = true
    · rw [if_pos hy]
      rcases List.mem_cons.mp hx with rfl | hx2
      · cases har : ops.gt x (ys.foldl (fun m v => if ops.gt v m then v else m) y) with
        | false => rfl
        | true =>
          have h1 := htrans y x _ hy har
          have h2 := ih y y (List.mem_cons_self y ys)
          rw [h1] at h2
          exact h2
      · exact ih y x hx2
    · rw [if_neg hy]
      have hy' : ops.gt y a = false := by simpa using hy
      rcases List.mem_cons.mp hx with rfl | hx2
      · exact ih x x (List.mem_cons_self x ys)
      rcases List.mem_cons.mp hx2 with rfl | hx3
      · cases hxr : ops.gt x (ys.foldl (fun m v => if ops.gt v m then v else m) a) with
        | false => rfl
        | true =>
          by_cases hax : ops.gt a x = true
          · have h1 := htrans a x _ hax hxr
            have h2 := ih a a (List.mem_cons_self a ys)
            rw [h1] at h2
            exact h2
          · have hax' : ops.gt a x = false := by simpa using hax
            have hxe : x = a := hconn x a hy' hax'
            subst hxe
            have h2 := ih x x (List.mem_cons_self x ys)
            rw [hxr] at h2
            exact h2
      · exact ih a x (List.mem_cons_of_mem a hx3)

/-- C6: when addition is commutative and associative and the strict
comparison is a strict total order (asymmetric, transitive, untied
values equal) - as for every exact numeric element type - sum, mean,
variance and max are invariant under permutation of the sequence. -/
theorem algorithms_perm_invariant (T : Type) (ops : Ops T)
    (hcomm : ∀ a b, ops.add a b = ops.add b a)
    (hassoc : ∀ a b c, ops.add (ops.add a b) c = ops.add a (ops.add b c))
    (hasym : ∀ a b, ops.gt a b = true → ops.gt b a = false)
    (htrans : ∀ a b c, ops.gt a b = true → ops.gt b c = true → ops.gt a c = true)
    (hconn : ∀ a b, ops.gt a b = false → ops.gt b a = false → a = b)
    (l l' : List T) (hp : l.Perm l') :
    sum ops l = sum ops l' ∧ mean ops l = mean ops l' ∧
    variance ops l = variance ops l' ∧
    core_numeric.max ops l = core_numeric.max ops l' := by
  have hrc : ∀ x y z : T, ops.add (ops.add z x) y = ops.add (ops.add z y) x := by
    intro x y z
    rw [hassoc, hassoc, hcomm x y]
  have hsum : sum ops l = sum ops l' := by
    unfold sum
    exact hp.foldl_eq' (fun x _ y _ z => hrc x y z) ops.zero
  have hlen := hp.length_eq
  have hmean : mean ops l = mean ops l' := by
    simp only [mean]
    rw [hsum, hlen]
  have hvar : variance ops l = variance ops l' := by
    simp only [variance]
    rw [hmean, hlen]
    have hfold :
        l.foldl (fun acc valor =>
            ops.add acc (sqTerm ops (ops.sub valor (mean ops l')))) ops.zero =
          l'.foldl (fun acc valor =>
            ops.add acc (sqTerm ops (ops.sub valor (mean ops l')))) ops.zero := by
      apply hp.foldl_eq'
      intro x _ y _ z
      exact hrc _ _ z
    rw [hfold]
  have hmax : core_numeric.max ops l = core_numeric.max ops l' := by
    cases l with
    | nil =>
      have hnil : l' = [] := List.Perm.eq_nil hp.symm
      subst hnil
      rfl
    | cons x xs =>
      cases l' with
      | nil => exact absurd (List.Perm.eq_nil hp) (by simp)
      | cons y ys =>
        have hm1mem : core_numeric.max ops (x :: xs) ∈ x :: xs :=
          foldl_choice_mem (fun maximo v => if ops.gt v maximo then v else maximo)
            (fun m v => by dsimp only; split <;> simp) xs x
        have hm2mem : core_numeric.max ops (y :: ys) ∈ y :: ys :=
          foldl_choice_mem (fun maximo v => if ops.gt v maximo then v else maximo)
            (fun m v => by dsimp only; split <;> simp) ys y
        have h1 : ops.gt (core_numeric.max ops (x :: xs))
            (core_numeric.max ops (y :: ys)) = false :=
          foldl_max_not_gt ops hasym htrans hconn ys y _ (hp.mem_iff.mp hm1mem)
        have h2 : ops.gt (core_numeric.max ops (y :: ys))
            (core_numeric.max ops (x :: xs)) = false :=
          foldl_max_not_gt ops hasym htrans hconn xs x _ (hp.mem_iff.mpr hm2mem)
        exact hconn _ _ h1 h2
  exact ⟨hsum, hmean, hvar, hmax⟩

/-- C6 witness: the theorem applied to exact integers and the
permutation [1, 2, 3] ~ [3, 1, 2]. -/
theorem algorithms_perm_invariant_witness :
    sum intOps [1, 2, 3] = sum intOps [3, 1, 2] ∧
    mean intOps [1, 2, 3] = mean intOps [3, 1, 2] ∧
    variance intOps [1, 2, 3] = variance intOps [3, 1, 2] ∧
    core_numeric.max intOps [1, 2, 3] = core_numeric.max intOps [3, 1, 2] :=
  algorithms_perm_invariant Int intOps
    (fun a b => Int.add_comm a b) (fun a b c => Int.add_assoc a b c)
    (fun a b h => by simp [intOps] at h ⊢; omega)
    (fun a b c h1 h2 => by simp [intOps] at h1 h2 ⊢; omega)
    (fun a b h1 h2 => by simp [intOps] at h1 h2; omega)
    [1, 2, 3] [3, 1, 2] (by decide)

/-! C7 -/

/-- C7 is false as stated: for a 64-bit unsigned integral element type
(which satisfies every capability the algorithms require, with
well-defined wraparound arithmetic), the constant sequence consisting of
three copies of 2^63 has a sum that wraps around, so the computed mean
is far from the constant and the variance is not the additive identity
zero. -/
theorem variance_constant_counterexample :
    List.replicate 3 (2 ^ 63) ≠ ([] : List Nat) ∧
    (∀ x ∈ List.replicate 3 (2 ^ 63), x = 2 ^ 63) ∧
    variance u64Ops (List.replicate 3 (2 ^ 63)) ≠ u64Ops.zero := by
  refine ⟨by decide, by decide, by decide⟩

/-- C7 (amended): variance of a non-empty constant sequence is the
additive identity for every element type whose operations behave
numerically on that constant: subtracting the constant from itself gives
the default value, squaring the default value and adding it to itself
give the default value back, dividing the default value by the count
gives the default value, and the mean of the constant sequence is the
constant itself (as holds for exact arithmetic, but not under
wraparound overflow). -/
theorem variance_constant_zero (T : Type) (ops : Ops T) (c : T) (n : Nat)
    (hn : n ≠ 0)
    (hmean : mean ops (List.replicate n c) = c)
    (hsub : ops.sub c c = ops.zero)
    (hsq : sqTerm ops ops.zero = ops.zero)
    (hadd : ops.add ops.zero ops.zero = ops.zero)
    (hdiv : ops.divN ops.zero n = ops.zero) :
    variance ops (List.replicate n c) = ops.zero := by
  simp only [variance]
  rw [hmean]
  have hacc : ∀ m : Nat,
      (List.replicate m c).foldl
        (fun acc valor => ops.add acc (sqTerm ops (ops.sub valor c))) ops.zero = ops.zero := by
    intro m
    induction m with
    | zero => rfl
    | succ k ih =>
      rw [List.replicate_succ, List.foldl_cons]
      rw [hsub, hsq, hadd]
      exact ih
  rw [hacc n, List.length_replicate, if_neg hn]
  exact hdiv

/-- C7 witness: the amended theorem applied to three copies of 5 over
the exact integers. -/
theorem variance_constant_zero_witness :
    variance intOps (List.replicate 3 5) = intOps.zero :=
  variance_constant_zero Int intOps 5 3 (by decide) (by decide) (by decide)
    (by decide) (by decide) (by decide)

/-! C8 -/

/-- C8: transform_reduce equals sum applied to the mapped sequence. -/
theorem transform_reduce_eq_sum_map (T : Type) (ops : Ops T)
    (seq : List T) (f : T → T) :
    transform_reduce ops seq f = sum ops (seq.map f) := by
  unfold transform_reduce sum
  rw [List.foldl_map]

/-! C9 -/

/-- The absolute difference of two naturals: the magnitude of a
deviation from the mean. -/
def absDiff (a b : Nat) : Nat := if b ≤ a then a - b else b - a

/-- A list of naturals bounded by B sums to at most count times B. -/
theorem nat_sum_le (B : Nat) :
    ∀ l : List Nat, (∀ x ∈ l, x ≤ B) → l.sum ≤ l.length * B := by
  intro l
  induction l with
  | nil => intro _; simp
  | cons x xs ih =>
    intro h
    rw [List.sum_cons, List.length_cons]
    have hx := h x (List.mem_cons_self x xs)
    have hxs := ih (fun y hy => h y (List.mem_cons_of_mem x hy))
    calc x + xs.sum ≤ B + xs.length * B := Nat.add_le_add hx hxs
      _ = (xs.length + 1) * B := by ring

/-- A fold of wraparound additions whose exact total stays below the
modulus computes the exact total. -/
theorem u64_foldl_add_exact (f : Nat → Nat → Nat) (q : Nat → Nat)
    (hf : ∀ x y, f x y = (x + q y) % M64) :
    ∀ (l : List Nat) (a : Nat), a + (l.map q).sum < M64 →
      l.foldl f a = a + (l.map q).sum := by
  intro l
  induction l with
  | nil => intro a _; simp
  | cons x xs ih =>
    intro a h
    rw [List.map_cons, List.sum_cons] at h
    rw [List.foldl_cons, hf a x]
    rw [Nat.mod_eq_of_lt (by omega)]
    rw [ih (a + q x) (by omega)]
    rw [List.map_cons, List.sum_cons]
    omega

/-- Wraparound subtraction computes the exact difference when the
minuend is at least the subtrahend. -/
theorem u64_sub_of_le (v m : Nat) (h : m ≤ v) (hv : v < M64) :
    u64Ops.sub v m = v - m := by
  show (v + (M64 - m % M64)) % M64 = v - m
  rw [Nat.mod_eq_of_lt (lt_of_le_of_lt h hv)]
  have he : v + (M64 - m) = M64 + (v - m) := by omega
  rw [he, Nat.add_mod_left]
  exact Nat.mod_eq_of_lt (by omega)

/-- Wraparound subtraction wraps to the modulus minus the magnitude when
the minuend is smaller than the subtrahend. -/
theorem u64_sub_of_lt (v m : Nat) (h : v < m) (hm : m < M64) :
    u64Ops.sub v m = M64 - (m - v) := by
  show (v + (M64 - m % M64)) % M64 = M64 - (m - v)
  rw [Nat.mod_eq_of_lt hm]
  have he : v + (M64 - m) = M64 - (m - v) := by omega
  rw [he]
  exact Nat.mod_eq_of_lt (by omega)

/-- Squaring a wrapped negative modulo the modulus recovers the square
of the magnitude. -/
theorem u64_wrap_sq (e : Nat) (he : e ≤ 2 ^ 16) :
    ((M64 - e) * (M64 - e)) % M64 = e * e := by
  have h1 : e ≤ M64 := by
    calc e ≤ 2 ^ 16 := he
      _ ≤ M64 := by norm_num [M64]
  have h2 : 2 * e ≤ M64 := by
    have : (2 : Nat) * 2 ^ 16 ≤ M64 := by norm_num [M64]
    omega
  have hee : e * e < M64 := by
    calc e * e ≤ 2 ^ 16 * 2 ^ 16 := Nat.mul_le_mul he he
      _ < M64 := by norm_num [M64]
  have key : (M64 - e) * (M64 - e) = M64 * (M64 - 2 * e) + e * e := by
    zify [h1, h2]
    ring
  rw [key, Nat.mul_add_mod]
  exact Nat.mod_eq_of_lt hee

/-- For small inputs, the integral squared-deviation term of variance is
exactly the square of the absolute deviation, whichever of the value and
the mean is larger. -/
theorem u64_sq_dev (v m : Nat) (hv : v ≤ 2 ^ 16) (hm : m ≤ 2 ^ 16) :
    sqTerm u64Ops (u64Ops.sub v m) = absDiff v m * absDiff v m := by
  have hsq : ∀ d : Nat, sqTerm u64Ops d = (d * d) % M64 := fun _ => rfl
  have hv64 : v < M64 := by
    calc v ≤ 2 ^ 16 := hv
      _ < M64 := by norm_num [M64]
  have hm64 : m < M64 := by
    calc m ≤ 2 ^ 16 := hm
      _ < M64 := by norm_num [M64]
  by_cases h : m ≤ v
  · rw [hsq, u64_sub_of_le v m h hv64]
    simp only [absDiff]
    rw [if_pos h]
    refine Nat.mod_eq_of_lt ?_
    calc (v - m) * (v - m) ≤ 2 ^ 16 * 2 ^ 16 := Nat.mul_le_mul (by omega) (by omega)
      _ < M64 := by norm_num [M64]
  · push_neg at h
    rw [hsq, u64_sub_of_lt v m h hm64]
    rw [u64_wrap_sq (m - v) (by omega)]
    simp only [absDiff]
    rw [if_neg (by omega)]

/-- Two folds agree when their step functions agree on every element of
the list. -/
theorem foldl_congr_mem {A B : Type} (f g : B → A → B) :
    ∀ (l : List A) (b : B), (∀ x, ∀ a ∈ l, f x a = g x a) →
      l.foldl f b = l.foldl g b := by
  intro l
  induction l with
  | nil => intro b _; rfl
  | cons x xs ih =>
    intro b h
    rw [List.foldl_cons, List.foldl_cons, h b x (List.mem_cons_self x xs)]
    exact ih (g b x) (fun z a ha => h z a (List.mem_cons_of_mem x ha))

/-- C9: for the 64-bit unsigned integral element type, mean is the
truncating integer quotient of the computed sum by the element count
(mean of [1, 2] is 1), mean_variadic truncates when dividing by the
argument count, and - whenever overflow plays no role (elements at most
2^16 and at most 2^31 of them) - variance divides the accumulated
squared deviations measured from the truncated integer mean by the
count. -/
theorem integral_mean_truncates :
    (∀ l : List Nat, l ≠ [] → mean u64Ops l = sum u64Ops l / l.length) ∧
    mean u64Ops [1, 2] = 1 ∧
    (∀ (first : Nat) (rest : List Nat),
      mean_variadic u64Ops first rest =
        sum_variadic u64Ops first rest / (rest.length + 1)) ∧
    (∀ l : List Nat, l ≠ [] → (∀ v ∈ l, v ≤ 2 ^ 16) → l.length ≤ 2 ^ 31 →
      mean u64Ops l = l.sum / l.length ∧
      variance u64Ops l =
        (l.map (fun valor => absDiff valor (l.sum / l.length) *
          absDiff valor (l.sum / l.length))).sum / l.length) := by
  have hmeanA : ∀ l : List Nat, l ≠ [] → mean u64Ops l = sum u64Ops l / l.length := by
    intro l h
    simp only [mean]
    rw [if_neg (by simpa using h)]
    rfl
  refine ⟨hmeanA, by decide, fun first rest => rfl, ?_⟩
  intro l hl hb hlen
  have hlpos : 0 < l.length := List.length_pos.mpr hl
  have hsum_le : l.sum ≤ l.length * 2 ^ 16 := nat_sum_le (2 ^ 16) l hb
  have hsumM : l.sum < M64 := by
    have h2 : l.length * 2 ^ 16 ≤ 2 ^ 31 * 2 ^ 16 := Nat.mul_le_mul_right _ hlen
    have h3 : (2 ^ 31 : Nat) * 2 ^ 16 < M64 := by norm_num [M64]
    omega
  have hsum : sum u64Ops l = l.sum := by
    have h0 := u64_foldl_add_exact u64Ops.add id (fun x y => rfl) l 0
      (by simpa using hsumM)
    calc sum u64Ops l = l.foldl u64Ops.add 0 := rfl
      _ = 0 + (l.map id).sum := h0
      _ = l.sum := by simp
  have hmean2 : mean u64Ops l = l.sum / l.length := by
    rw [hmeanA l hl, hsum]
  have hmle : l.sum / l.length ≤ 2 ^ 16 := by
    have h1 : l.sum / l.length ≤ l.length * 2 ^ 16 / l.length :=
      Nat.div_le_div_right hsum_le
    rwa [Nat.mul_div_cancel_left _ hlpos] at h1
  refine ⟨hmean2, ?_⟩
  simp only [variance]
  rw [hmean2, if_neg (by omega)]
  have hext := foldl_congr_mem
    (fun acc valor => u64Ops.add acc (sqTerm u64Ops (u64Ops.sub valor (l.sum / l.length))))
    (fun acc valor => u64Ops.add acc (absDiff valor (l.sum / l.length) *
      absDiff valor (l.sum / l.length)))
    l u64Ops.zero
    (fun x a ha => by
      dsimp only
      rw [u64_sq_dev a (l.sum / l.length) (hb a ha) hmle])
  rw [hext]
  have habs_le : ∀ v ∈ l, absDiff v (l.sum / l.length) *
      absDiff v (l.sum / l.length) ≤ 2 ^ 16 * 2 ^ 16 := by
    intro v hv
    have h1 : absDiff v (l.sum / l.length) ≤ 2 ^ 16 := by
      have hvB := hb v hv
      simp only [absDiff]
      split <;> omega
    exact Nat.mul_le_mul h1 h1
  have hq : (l.map (fun valor => absDiff valor (l.sum / l.length) *
      absDiff valor (l.sum / l.length))).sum ≤ l.length * (2 ^ 16 * 2 ^ 16) := by
    have h0 := nat_sum_le (2 ^ 16 * 2 ^ 16)
      (l.map (fun valor => absDiff valor (l.sum / l.length) *
        absDiff valor (l.sum / l.length)))
      (by
        intro x hx
        obtain ⟨v, hv, rfl⟩ := List.mem_map.mp hx
        exact habs_le v hv)
    rwa [List.length_map] at h0
  have hqM : (0 : Nat) + (l.map (fun valor => absDiff valor (l.sum / l.length) *
      absDiff valor (l.sum / l.length))).sum < M64 := by
    have h3 : l.length * (2 ^ 16 * 2 ^ 16) ≤ 2 ^ 31 * (2 ^ 16 * 2 ^ 16) :=
      Nat.mul_le_mul_right _ hlen
    have h4 : (2 : Nat) ^ 31 * (2 ^ 16 * 2 ^ 16) < M64 := by norm_num [M64]
    omega
  have hfold := u64_foldl_add_exact
    (fun acc valor => u64Ops.add acc (absDiff valor (l.sum / l.length) *
      absDiff valor (l.sum / l.length)))
    (fun valor => absDiff valor (l.sum / l.length) * absDiff valor (l.sum / l.length))
    (fun x y => rfl) l 0 hqM
  have hzero : (u64Ops.zero : Nat) = 0 := rfl
  rw [hzero, hfold]
  show ((0 : Nat) + _) / l.length = _
  rw [Nat.zero_add]

/-- C9 witness: the theorem applied to the two-element list [1, 2],
whose truncated mean is 1. -/
theorem integral_mean_truncates_witness :
    mean u64Ops [1, 2] = sum u64Ops [1, 2] / List.length [1, 2] ∧
    mean u64Ops [1, 2] = List.sum [1, 2] / List.length [1, 2] ∧
    variance u64Ops [1, 2] =
      (List.map (fun valor => absDiff valor (List.sum [1, 2] / List.length [1, 2]) *
        absDiff valor (List.sum [1, 2] / List.length [1, 2])) [1, 2]).sum /
        List.length [1, 2] :=
  ⟨integral_mean_truncates.1 [1, 2] (by simp),
   (integral_mean_truncates.2.2.2 [1, 2] (by simp) (by decide) (by decide)).1,
   (integral_mean_truncates.2.2.2 [1, 2] (by simp) (by decide) (by decide)).2⟩

/-! C10 -/

/-- C10: the result of max on a non-empty sequence is an element of the
sequence, and the result of max_variadic is one of its arguments. -/
theorem max_returns_member (T : Type) (ops : Ops T) :
    (∀ seq : List T, seq ≠ [] → core_numeric.max ops seq ∈ seq) ∧
    (∀ (first : T) (rest : List T), max_variadic ops first rest ∈ first :: rest) := by
  constructor
  · intro seq h
    match seq with
    | x :: xs =>
      exact foldl_choice_mem (fun maximo v => if ops.gt v maximo then v else maximo)
        (fun m v => by dsimp only; split <;> simp) xs x
  · intro first rest
    exact foldl_choice_mem (fun max_val r => max_aux ops max_val r)
      (fun m v => by dsimp only [max_aux]; split <;> simp) rest first

/-- C10 witness: concrete membership results obtained from the theorem. -/
theorem max_returns_member_witness :
    core_numeric.max intOps [3, 1, 4] ∈ [3, 1, 4] ∧
    max_variadic intOps 10 [5, 20, 1] ∈ 10 :: [5, 20, 1] :=
  ⟨(max_returns_member Int intOps).1 [3, 1, 4] (by simp),
   (max_returns_member Int intOps).2 10 [5, 20, 1]⟩

end core_numeric
